import Mathlib

/-!
Verification of the bounded-depth adversarial search engine for the
Connect-Four variant (source: `four_in_a_row.py`).

The Board collaborator (grid, `placeable`, `place`, `clone`, `terminal`,
`who_wins`) is not part of the repository's source tree; it is modelled from
the specification's Board contract (a `rows × cols` grid of slots that are
empty or hold one of the two players' discs, a placeability test, disc
placement, deep cloning, a terminal test that is true on a win or a full
board, and winner identification).

The algorithmic core — `get_child_boards`, `evaluate`, `minimax`,
`alphabeta`, `expectimax` — is translated directly from the Python source.
Scores are `Int` (Python integers are exact); the expectimax chance node
uses `ℚ` for the exact value of Python's division.  `sys.maxsize` is the
constant `2 ^ 63 - 1`.

Two embeddings are given: a pure value-level one (boards passed by value,
used for all functional claims), and a heap-passing one (`Heap` is the store
of board objects, `place` is the only mutating operation, `clone` allocates)
used to verify the frame claims: the search never mutates any pre-existing
board object, in particular the caller's input board.
-/

namespace FourInARow

/-- The two player identity values of the Board collaborator. -/
inductive Player
  | one
  | two
deriving DecidableEq, Repr

/-- The opponent of a player (`board.PLAYER2 if player == board.PLAYER1 else board.PLAYER1`). -/
def opponent : Player → Player
  | .one => .two
  | .two => .one

/-- Content of one grid slot.  `invalid` is the out-of-bounds sentinel
(`invalid_slot = -1`) used only inside the evaluator's diagonal extraction;
board grids never contain it. -/
inductive Cell
  | empty
  | disc (p : Player)
  | invalid
deriving DecidableEq, Repr

/-- Modelled from the spec: the Board collaborator's data — a fixed-size grid
of `rows × cols` slots stored as a list of rows. -/
structure Board where
  rows : Nat
  cols : Nat
  grid : List (List Cell)
deriving DecidableEq, Repr

/-- Modelled from the spec: `board.row(r)`, the ordered slot contents of row `r`. -/
def Board.row (b : Board) (r : Nat) : List Cell := b.grid.getD r []

/-- Modelled from the spec: `board.col(c)`, the ordered slot contents of column `c`. -/
def Board.col (b : Board) (c : Nat) : List Cell :=
  b.grid.map (fun row => row.getD c Cell.invalid)

/-- Modelled from the spec: `board.placeable(c)` — column `c` has room for
another disc, i.e. some slot of the column is empty. -/
def Board.placeable (b : Board) (c : Nat) : Prop := Cell.empty ∈ b.col c

instance (b : Board) (c : Nat) : Decidable (b.placeable c) :=
  inferInstanceAs (Decidable (Cell.empty ∈ b.col c))

/-- Modelled from the spec: the board is full — no column is placeable. -/
def Board.isFull (b : Board) : Prop := ∀ c ∈ List.range b.cols, ¬ b.placeable c

instance (b : Board) : Decidable b.isFull :=
  inferInstanceAs (Decidable (∀ c ∈ List.range b.cols, ¬ b.placeable c))

/-- Modelled from the spec: `board.clone()`, an independent deep copy (in the
pure value model a copy of the contents; object identity is treated in the
heap model below). -/
def Board.clone (b : Board) : Board := ⟨b.rows, b.cols, b.grid⟩

/-- Modelled from the spec: `board.place(player, c)` — drop `player`'s disc
into column `c`: the lowest empty slot of the column (largest row index)
receives the disc.  If the column has no empty slot the board is returned
unchanged (the source never calls `place` in that situation). -/
def Board.place (b : Board) (p : Player) (c : Nat) : Board :=
  match (List.range b.grid.length).reverse.find?
      (fun r => decide ((b.grid.getD r []).getD c Cell.invalid = Cell.empty)) with
  | some r => ⟨b.rows, b.cols, b.grid.set r ((b.grid.getD r []).set c (Cell.disc p))⟩
  | none => b

/-! ### Segment extraction and the static evaluator (`evaluate`) -/

/-- Python's `zip(*rows)`: elementwise tuples up to the shortest row.  The
default cell is never read because indices stay below every length. -/
def minLen : List (List Cell) → Nat
  | [] => 0
  | l :: ls => ls.foldl (fun m l' => min m l'.length) l.length

/-- Python's `zip(*ls)` specialised to cell grids. -/
def pyZip (ls : List (List Cell)) : List (List Cell) :=
  (List.range (minLen ls)).map (fun i => ls.map (fun l => l.getD i Cell.invalid))

/-- Python's slice `l[i:i+4]`. -/
def window4 (l : List Cell) (i : Nat) : List Cell := (l.drop i).take 4

/-- The `left_revolved` grid: row `r` is shifted right by `r` sentinel slots
and padded to a common width. -/
def leftRevolved (b : Board) : List (List Cell) :=
  (List.range b.rows).map (fun r =>
    List.replicate r Cell.invalid ++ b.row r ++ List.replicate (b.rows - 1 - r) Cell.invalid)

/-- The `right_revolved` grid: mirror image of `leftRevolved`. -/
def rightRevolved (b : Board) : List (List Cell) :=
  (List.range b.rows).map (fun r =>
    List.replicate (b.rows - 1 - r) Cell.invalid ++ b.row r ++ List.replicate r Cell.invalid)

/-- All 4-slot segments collected by `evaluate`: horizontal and vertical
sliding windows, plus the columns of the two revolved grids (diagonals),
including the windows that still contain the sentinel (those are skipped
during scoring, exactly as in the source). -/
def segments (b : Board) : List (List Cell) :=
  ((List.range b.rows).flatMap (fun r =>
      (List.range (b.cols - 3)).map (fun c => window4 (b.row r) c)))
  ++ ((List.range b.cols).flatMap (fun c =>
      (List.range (b.rows - 3)).map (fun r => window4 (b.col c) r)))
  ++ ((pyZip (leftRevolved b)).flatMap (fun col =>
      (List.range (b.rows - 3)).map (fun r => window4 col r)))
  ++ ((pyZip (rightRevolved b)).flatMap (fun col =>
      (List.range (b.rows - 3)).map (fun r => window4 col r)))

/-- Modelled from the spec: `board.who_wins()` — the player owning a complete
4-in-a-row segment, or `none`.  Sentinel-containing windows can never be a
win because the sentinel is not a disc. -/
def Board.who_wins (b : Board) : Option Player :=
  if (segments b).any (fun s => decide (s = List.replicate 4 (Cell.disc Player.one))) then
    some Player.one
  else if (segments b).any (fun s => decide (s = List.replicate 4 (Cell.disc Player.two))) then
    some Player.two
  else
    none

/-- Modelled from the spec: `board.terminal()` — the game has ended: a win or
a full board. -/
def Board.terminal (b : Board) : Prop := b.who_wins ≠ none ∨ b.isFull

instance (b : Board) : Decidable b.terminal :=
  inferInstanceAs (Decidable (b.who_wins ≠ none ∨ b.isFull))

/-- The fixed weights `[0, 1, 4, 16, 1000]` for occupancy counts 0–4. -/
def weights : List Int := [0, 1, 4, 16, 1000]

/-- `l[i] += 1` on a tally list. -/
def bump (l : List Int) (i : Nat) : List Int := l.set i (l.getD i 0 + 1)

/-- One iteration of the scoring loop of `evaluate`: skip sentinel windows,
then bump `score[s.count(player)]` when the adversary is absent and
`adv_score[s.count(adversary)]` when the player is absent. -/
def evalStep (player adversary : Player) (acc : List Int × List Int) (s : List Cell) :
    List Int × List Int :=
  if Cell.invalid ∈ s then acc
  else
    let acc1 := if Cell.disc adversary ∈ s then acc
      else (bump acc.1 (s.count (Cell.disc player)), acc.2)
    if Cell.disc player ∈ s then acc1
    else (acc1.1, bump acc1.2 (s.count (Cell.disc adversary)))

/-- `sum([s * w for s, w in zip(a, w)])`. -/
def dot (a w : List Int) : Int := ((a.zip w).map (fun pr => pr.1 * pr.2)).sum

/-- The static evaluator `evaluate(player, board)`: reward minus penalty of
the weighted segment tallies. -/
def evaluate (player : Player) (b : Board) : Int :=
  let adversary := opponent player
  let tallies := (segments b).foldl (evalStep player adversary) ([0, 0, 0, 0, 0], [0, 0, 0, 0, 0])
  dot tallies.1 weights - dot tallies.2 weights

/-- `get_child_boards(player, board)`: for each placeable column in ascending
order, clone the board and place the player's disc there. -/
def get_child_boards (player : Player) (b : Board) : List (Nat × Board) :=
  (List.range b.cols).foldl
    (fun res c => if b.placeable c then res ++ [(c, (b.clone).place player c)] else res) []

/-- Net contribution of one segment to `evaluate p`: its weighted reward when
the opponent is absent minus its weighted penalty when `p` is absent;
sentinel windows contribute nothing. -/
def contrib (p : Player) (s : List Cell) : Int :=
  if Cell.invalid ∈ s then 0
  else
    (if Cell.disc (opponent p) ∈ s then 0 else weights.getD (s.count (Cell.disc p)) 0)
    - (if Cell.disc p ∈ s then 0 else weights.getD (s.count (Cell.disc (opponent p))) 0)

/-- The running reward-minus-penalty of a tally state. -/
def dd (st : List Int × List Int) : Int := dot st.1 weights - dot st.2 weights

/-! ### The three search algorithms -/

/-- `sys.maxsize`. -/
def maxsize : Int := 2 ^ 63 - 1

/-- The terminal branch of `minimax.value`: the three `who_wins` cases all
return the same evaluation (the dead branching of the source is kept). -/
def terminalEvalMM (maxP : Player) (b : Board) : Option Nat × Int :=
  if b.who_wins = some maxP then (none, evaluate maxP b)
  else if b.who_wins = some (opponent maxP) then (none, evaluate maxP b)
  else (none, evaluate maxP b)

/-- The terminal branch of `alphabeta.value` (the source tests `next_player`
first there). -/
def terminalEvalAB (maxP : Player) (b : Board) : Option Nat × Int :=
  if b.who_wins = some (opponent maxP) then (none, evaluate maxP b)
  else if b.who_wins = some maxP then (none, evaluate maxP b)
  else (none, evaluate maxP b)

/-- The terminal branch of `expectimax.value`. -/
def terminalEvalEM (maxP : Player) (b : Board) : Option Nat × ℚ :=
  if b.who_wins = some maxP then (none, (evaluate maxP b : ℚ))
  else if b.who_wins = some (opponent maxP) then (none, (evaluate maxP b : ℚ))
  else (none, (evaluate maxP b : ℚ))

/-- The loop of `minimax.max_value`: keep the strictly greatest child score,
first-seen move wins ties. -/
def miniMaxLoop (f : Board → Option Nat × Int) :
    List (Nat × Board) → Option Nat → Int → Option Nat × Int
  | [], pl, lm => (pl, lm)
  | pr :: rest, pl, lm =>
    let score := (f pr.2).2
    if score > lm then miniMaxLoop f rest (some pr.1) score
    else miniMaxLoop f rest pl lm

/-- The loop of `minimax.min_value`. -/
def miniMinLoop (f : Board → Option Nat × Int) :
    List (Nat × Board) → Option Nat → Int → Option Nat × Int
  | [], pl, lm => (pl, lm)
  | pr :: rest, pl, lm =>
    let score := (f pr.2).2
    if score < lm then miniMinLoop f rest (some pr.1) score
    else miniMinLoop f rest pl lm

/-- `minimax.value`, recursion on the remaining depth; the turn player
alternates between `maxP` and its opponent exactly as in the source. -/
def miniValue (maxP : Player) : Nat → Player → Board → Option Nat × Int
  | 0, _, b => if b.terminal then terminalEvalMM maxP b else (none, evaluate maxP b)
  | d + 1, t, b =>
    if b.terminal then terminalEvalMM maxP b
    else if t = maxP then
      miniMaxLoop (miniValue maxP d (opponent maxP)) (get_child_boards t b) none (-maxsize)
    else
      miniMinLoop (miniValue maxP d maxP) (get_child_boards t b) none maxsize

/-- Top-level `minimax(player, board, depth_limit)`: the chosen column. -/
def minimax (player : Player) (b : Board) (depth_limit : Nat) : Option Nat :=
  (miniValue player depth_limit player b).1

/-- The loop of `alphabeta.max_value`: `beta` is fixed, `alpha` is raised,
and the loop breaks as soon as `alpha >= beta`. -/
def abMaxLoop (f : Board → Int → Int → Option Nat × Int) (β : Int) :
    List (Nat × Board) → Option Nat → Int → Int → Option Nat × Int
  | [], pl, lm, _ => (pl, lm)
  | pr :: rest, pl, lm, α =>
    let score := (f pr.2 α β).2
    let pl' := if score > lm then some pr.1 else pl
    let lm' := if score > lm then score else lm
    let α' := max α score
    if α' ≥ β then (pl', lm') else abMaxLoop f β rest pl' lm' α'

/-- The loop of `alphabeta.min_value`. -/
def abMinLoop (f : Board → Int → Int → Option Nat × Int) (α : Int) :
    List (Nat × Board) → Option Nat → Int → Int → Option Nat × Int
  | [], pl, lm, _ => (pl, lm)
  | pr :: rest, pl, lm, β =>
    let score := (f pr.2 α β).2
    let pl' := if score < lm then some pr.1 else pl
    let lm' := if score < lm then score else lm
    let β' := min β score
    if β' ≤ α then (pl', lm') else abMinLoop f α rest pl' lm' β'

/-- `alphabeta.value`. -/
def abValue (maxP : Player) : Nat → Player → Board → Int → Int → Option Nat × Int
  | 0, _, b, _, _ => if b.terminal then terminalEvalAB maxP b else (none, evaluate maxP b)
  | d + 1, t, b, α, β =>
    if b.terminal then terminalEvalAB maxP b
    else if t = maxP then
      abMaxLoop (abValue maxP d (opponent maxP)) β (get_child_boards t b) none (-maxsize) α
    else
      abMinLoop (abValue maxP d maxP) α (get_child_boards t b) none maxsize β

/-- Top-level `alphabeta(player, board, depth_limit)` with the initial full
window `(-sys.maxsize, sys.maxsize)`. -/
def alphabeta (player : Player) (b : Board) (depth_limit : Nat) : Option Nat :=
  (abValue player depth_limit player b (-maxsize) maxsize).1

/-- The loop of `expectimax.max_value` (scores are rationals). -/
def expMaxLoop (f : Board → Option Nat × ℚ) :
    List (Nat × Board) → Option Nat → ℚ → Option Nat × ℚ
  | [], pl, lm => (pl, lm)
  | pr :: rest, pl, lm =>
    let score := (f pr.2).2
    if score > lm then expMaxLoop f rest (some pr.1) score
    else expMaxLoop f rest pl lm

/-- The accumulation loop of `expectimax.min_value`:
`expected_value += p * value(...)[1]`. -/
def expSumLoop (f : Board → Option Nat × ℚ) (prob : ℚ) :
    List (Nat × Board) → ℚ → ℚ
  | [], acc => acc
  | pr :: rest, acc => expSumLoop f prob rest (acc + prob * (f pr.2).2)

/-- `expectimax.value`.  The chance node computes `1 / len(moves)` exactly in
`ℚ`; Python would raise a `ZeroDivisionError` on an empty move list, which in
`ℚ` is the (unreachable, see the division-safety theorem) junk value `1/0 = 0`. -/
def expValue (maxP : Player) : Nat → Player → Board → Option Nat × ℚ
  | 0, _, b => if b.terminal then terminalEvalEM maxP b else (none, (evaluate maxP b : ℚ))
  | d + 1, t, b =>
    if b.terminal then terminalEvalEM maxP b
    else if t = maxP then
      expMaxLoop (expValue maxP d (opponent maxP)) (get_child_boards t b) none (-(maxsize : ℚ))
    else
      let moves := get_child_boards t b
      let prob : ℚ := 1 / (moves.length : ℚ)
      (none, expSumLoop (expValue maxP d maxP) prob moves 0)

/-- Top-level `expectimax(player, board, depth_limit)`. -/
def expectimax (player : Player) (b : Board) (depth_limit : Nat) : Option Nat :=
  (expValue player depth_limit player b).1

/-- Division safety of the expectimax recursion: at every reachable chance
node the move list is non-empty (so `1 / len(moves)` never divides by zero).
The predicate mirrors the recursion of `expectimax.value`. -/
def expSafe (maxP : Player) : Nat → Player → Board → Prop
  | 0, _, _ => True
  | d + 1, t, b =>
    if b.terminal then True
    else if t = maxP then
      ∀ pr ∈ get_child_boards t b, expSafe maxP d (opponent maxP) pr.2
    else
      get_child_boards t b ≠ [] ∧ ∀ pr ∈ get_child_boards t b, expSafe maxP d maxP pr.2

/-! ### Move-generator call counters

These mirror the recursion of the three `value` functions and count how many
times `get_child_boards` is invoked (once per expanded node; alpha-beta stops
expanding a node's remaining children after a cutoff). -/

/-- Number of `get_child_boards` calls performed by `minimax.value`. -/
def miniCalls (maxP : Player) : Nat → Player → Board → Nat
  | 0, _, _ => 0
  | d + 1, t, b =>
    if b.terminal then 0
    else
      let nxt := if t = maxP then opponent maxP else maxP
      1 + ((get_child_boards t b).foldl (fun acc pr => acc + miniCalls maxP d nxt pr.2) 0)

/-- Children portion of the `alphabeta.max_value` call count. -/
def abCallsMaxLoop (fScore : Board → Int → Int → Option Nat × Int)
    (fCalls : Board → Int → Int → Nat) (β : Int) : List (Nat × Board) → Int → Nat
  | [], _ => 0
  | pr :: rest, α =>
    let score := (fScore pr.2 α β).2
    let α' := max α score
    fCalls pr.2 α β + (if α' ≥ β then 0 else abCallsMaxLoop fScore fCalls β rest α')

/-- Children portion of the `alphabeta.min_value` call count. -/
def abCallsMinLoop (fScore : Board → Int → Int → Option Nat × Int)
    (fCalls : Board → Int → Int → Nat) (α : Int) : List (Nat × Board) → Int → Nat
  | [], _ => 0
  | pr :: rest, β =>
    let score := (fScore pr.2 α β).2
    let β' := min β score
    fCalls pr.2 α β + (if β' ≤ α then 0 else abCallsMinLoop fScore fCalls α rest β')

/-- Number of `get_child_boards` calls performed by `alphabeta.value`. -/
def abCalls (maxP : Player) : Nat → Player → Board → Int → Int → Nat
  | 0, _, _, _, _ => 0
  | d + 1, t, b, α, β =>
    if b.terminal then 0
    else if t = maxP then
      1 + abCallsMaxLoop (abValue maxP d (opponent maxP)) (abCalls maxP d (opponent maxP)) β
        (get_child_boards t b) α
    else
      1 + abCallsMinLoop (abValue maxP d maxP) (abCalls maxP d maxP) α
        (get_child_boards t b) β

/-- Number of `get_child_boards` calls performed by `expectimax.value`. -/
def expCalls (maxP : Player) : Nat → Player → Board → Nat
  | 0, _, _ => 0
  | d + 1, t, b =>
    if b.terminal then 0
    else
      let nxt := if t = maxP then opponent maxP else maxP
      1 + ((get_child_boards t b).foldl (fun acc pr => acc + expCalls maxP d nxt pr.2) 0)

/-! ### The heap (object-store) embedding

Python passes board objects by reference; `board.place(...)` is the single
mutating operation the core ever performs, and the source only applies it to
a freshly cloned object.  The heap embedding makes this observable: a `Heap`
is the list of live board objects (indices are object identities), `cloneH`
allocates, `placeH` mutates in place.  The searches are re-expressed in
heap-passing style, line for line. -/

/-- The store of live board objects; a board reference is an index. -/
abbrev Heap := List Board

/-- The default board (never actually dereferenced by the source's flow). -/
def emptyB : Board := ⟨0, 0, []⟩

/-- Dereference a board object. -/
def hGet (h : Heap) (i : Nat) : Board := h.getD i emptyB

/-- `board.clone()`: allocate a fresh object holding a copy of object `i`. -/
def cloneH (h : Heap) (i : Nat) : Nat × Heap := (h.length, h ++ [hGet h i])

/-- `board.place(player, c)` on object `i`: in-place mutation. -/
def placeH (p : Player) (c : Nat) (i : Nat) (h : Heap) : Heap :=
  h.set i ((hGet h i).place p c)

/-- The loop of `get_child_boards` in heap-passing style: each placeable
column clones the input object and places the disc on the clone. -/
def gcbLoop (player : Player) (bid : Nat) : List Nat → Heap → List (Nat × Nat) × Heap
  | [], h => ([], h)
  | c :: rest, h =>
    if (hGet h bid).placeable c then
      let cl := cloneH h bid
      let h2 := placeH player c cl.1 cl.2
      let r := gcbLoop player bid rest h2
      ((c, cl.1) :: r.1, r.2)
    else gcbLoop player bid rest h

/-- `get_child_boards(player, board)` in heap-passing style. -/
def getChildBoardsH (player : Player) (bid : Nat) (h : Heap) : List (Nat × Nat) × Heap :=
  gcbLoop player bid (List.range (hGet h bid).cols) h

/-- Heap version of `minimax.max_value`'s loop. -/
def miniMaxLoopH (f : Nat → Heap → (Option Nat × Int) × Heap) :
    List (Nat × Nat) → Option Nat → Int → Heap → (Option Nat × Int) × Heap
  | [], pl, lm, h => ((pl, lm), h)
  | pr :: rest, pl, lm, h =>
    let r := f pr.2 h
    if r.1.2 > lm then miniMaxLoopH f rest (some pr.1) r.1.2 r.2
    else miniMaxLoopH f rest pl lm r.2

/-- Heap version of `minimax.min_value`'s loop. -/
def miniMinLoopH (f : Nat → Heap → (Option Nat × Int) × Heap) :
    List (Nat × Nat) → Option Nat → Int → Heap → (Option Nat × Int) × Heap
  | [], pl, lm, h => ((pl, lm), h)
  | pr :: rest, pl, lm, h =>
    let r := f pr.2 h
    if r.1.2 < lm then miniMinLoopH f rest (some pr.1) r.1.2 r.2
    else miniMinLoopH f rest pl lm r.2

/-- Heap version of `minimax.value`. -/
def miniValueH (maxP : Player) : Nat → Player → Nat → Heap → (Option Nat × Int) × Heap
  | 0, _, bid, h =>
    ((if (hGet h bid).terminal then terminalEvalMM maxP (hGet h bid)
      else (none, evaluate maxP (hGet h bid))), h)
  | d + 1, t, bid, h =>
    if (hGet h bid).terminal then (terminalEvalMM maxP (hGet h bid), h)
    else
      let g := getChildBoardsH t bid h
      if t = maxP then miniMaxLoopH (miniValueH maxP d (opponent maxP)) g.1 none (-maxsize) g.2
      else miniMinLoopH (miniValueH maxP d maxP) g.1 none maxsize g.2

/-- Heap version of top-level `minimax`. -/
def minimaxH (player : Player) (bid : Nat) (depth_limit : Nat) (h : Heap) :
    Option Nat × Heap :=
  let r := miniValueH player depth_limit player bid h
  (r.1.1, r.2)

/-- Heap version of `alphabeta.max_value`'s loop. -/
def abMaxLoopH (f : Nat → Int → Int → Heap → (Option Nat × Int) × Heap) (β : Int) :
    List (Nat × Nat) → Option Nat → Int → Int → Heap → (Option Nat × Int) × Heap
  | [], pl, lm, _, h => ((pl, lm), h)
  | pr :: rest, pl, lm, α, h =>
    let r := f pr.2 α β h
    let score := r.1.2
    let pl' := if score > lm then some pr.1 else pl
    let lm' := if score > lm then score else lm
    let α' := max α score
    if α' ≥ β then ((pl', lm'), r.2) else abMaxLoopH f β rest pl' lm' α' r.2

/-- Heap version of `alphabeta.min_value`'s loop. -/
def abMinLoopH (f : Nat → Int → Int → Heap → (Option Nat × Int) × Heap) (α : Int) :
    List (Nat × Nat) → Option Nat → Int → Int → Heap → (Option Nat × Int) × Heap
  | [], pl, lm, _, h => ((pl, lm), h)
  | pr :: rest, pl, lm, β, h =>
    let r := f pr.2 α β h
    let score := r.1.2
    let pl' := if score < lm then some pr.1 else pl
    let lm' := if score < lm then score else lm
    let β' := min β score
    if β' ≤ α then ((pl', lm'), r.2) else abMinLoopH f α rest pl' lm' β' r.2

/-- Heap version of `alphabeta.value`. -/
def abValueH (maxP : Player) : Nat → Player → Nat → Int → Int → Heap → (Option Nat × Int) × Heap
  | 0, _, bid, _, _, h =>
    ((if (hGet h bid).terminal then terminalEvalAB maxP (hGet h bid)
      else (none, evaluate maxP (hGet h bid))), h)
  | d + 1, t, bid, α, β, h =>
    if (hGet h bid).terminal then (terminalEvalAB maxP (hGet h bid), h)
    else
      let g := getChildBoardsH t bid h
      if t = maxP then abMaxLoopH (abValueH maxP d (opponent maxP)) β g.1 none (-maxsize) α g.2
      else abMinLoopH (abValueH maxP d maxP) α g.1 none maxsize β g.2

/-- Heap version of top-level `alphabeta`. -/
def alphabetaH (player : Player) (bid : Nat) (depth_limit : Nat) (h : Heap) :
    Option Nat × Heap :=
  let r := abValueH player depth_limit player bid (-maxsize) maxsize h
  (r.1.1, r.2)

/-- Heap version of `expectimax.max_value`'s loop. -/
def expMaxLoopH (f : Nat → Heap → (Option Nat × ℚ) × Heap) :
    List (Nat × Nat) → Option Nat → ℚ → Heap → (Option Nat × ℚ) × Heap
  | [], pl, lm, h => ((pl, lm), h)
  | pr :: rest, pl, lm, h =>
    let r := f pr.2 h
    if r.1.2 > lm then expMaxLoopH f rest (some pr.1) r.1.2 r.2
    else expMaxLoopH f rest pl lm r.2

/-- Heap version of `expectimax.min_value`'s accumulation loop. -/
def expSumLoopH (f : Nat → Heap → (Option Nat × ℚ) × Heap) (prob : ℚ) :
    List (Nat × Nat) → ℚ → Heap → ℚ × Heap
  | [], acc, h => (acc, h)
  | pr :: rest, acc, h =>
    let r := f pr.2 h
    expSumLoopH f prob rest (acc + prob * r.1.2) r.2

/-- Heap version of `expectimax.value`. -/
def expValueH (maxP : Player) : Nat → Player → Nat → Heap → (Option Nat × ℚ) × Heap
  | 0, _, bid, h =>
    ((if (hGet h bid).terminal then terminalEvalEM maxP (hGet h bid)
      else (none, (evaluate maxP (hGet h bid) : ℚ))), h)
  | d + 1, t, bid, h =>
    if (hGet h bid).terminal then (terminalEvalEM maxP (hGet h bid), h)
    else
      let g := getChildBoardsH t bid h
      if t = maxP then expMaxLoopH (expValueH maxP d (opponent maxP)) g.1 none (-(maxsize : ℚ)) g.2
      else
        let prob : ℚ := 1 / (g.1.length : ℚ)
        let r := expSumLoopH (expValueH maxP d maxP) prob g.1 0 g.2
        ((none, r.1), r.2)

/-- Heap version of top-level `expectimax`. -/
def expectimaxH (player : Player) (bid : Nat) (depth_limit : Nat) (h : Heap) :
    Option Nat × Heap :=
  let r := expValueH player depth_limit player bid h
  (r.1.1, r.2)

/-- Heap extension: every pre-existing object is untouched (new objects may
have been allocated past the old length). -/
def HeapExt (h h' : Heap) : Prop :=
  h.length ≤ h'.length ∧ ∀ k < h.length, hGet h' k = hGet h k

/-! ### Shape and score-bound bookkeeping

`evaluate` is a sum of per-segment contributions, each of magnitude at most
1000, so its magnitude is at most `SB b = 1000 * number of segments`.  The
number of segments depends only on the board's shape (row/column fields and
the length of every row), which `place` preserves; hence the same bound
holds across the whole game tree.  These bounds are what tie the searches to
the `-sys.maxsize` / `sys.maxsize` initialisations: alpha-beta's window is
only guaranteed to enclose all scores when `SB b < maxsize`. -/

/-- Length of the shortest member list (`minLen` restated on bare lengths). -/
def minLenN : List Nat → Nat
  | [] => 0
  | n :: ns => ns.foldl min n

/-- Row lengths of `leftRevolved` as a function of the shape. -/
def lrLens (rows : Nat) (lens : List Nat) : List Nat :=
  (List.range rows).map (fun r => r + lens.getD r 0 + (rows - 1 - r))

/-- Row lengths of `rightRevolved` as a function of the shape. -/
def rrLens (rows : Nat) (lens : List Nat) : List Nat :=
  (List.range rows).map (fun r => rows - 1 - r + lens.getD r 0 + r)

/-- Number of collected segments as a function of the shape. -/
def segCount (rows cols : Nat) (lens : List Nat) : Nat :=
  rows * (cols - 3) + cols * (rows - 3)
    + minLenN (lrLens rows lens) * (rows - 3) + minLenN (rrLens rows lens) * (rows - 3)

/-- The shape of a board: dimensions and row lengths. -/
def shape (b : Board) : Nat × Nat × List Nat := (b.rows, b.cols, b.grid.map List.length)

/-- Static score bound: `1000` times the number of segments. -/
def SB (b : Board) : Int := 1000 * ((segments b).length : Int)

/-- A concrete board used by witnesses: one row, `X X . .`. -/
def bRow : Board :=
  ⟨1, 4, [[Cell.disc Player.one, Cell.disc Player.one, Cell.empty, Cell.empty]]⟩

/-- A terminal board (Player 1 already has a vertical 4-in-a-row) that still
has a placeable column. -/
def bWin : Board :=
  ⟨4, 2, [[Cell.disc Player.one, Cell.empty], [Cell.disc Player.one, Cell.empty],
          [Cell.disc Player.one, Cell.empty], [Cell.disc Player.one, Cell.empty]]⟩

/-- An empty 1×1 board. -/
def bOne : Board := ⟨1, 1, [[Cell.empty]]⟩

/-- An empty 1×2 board. -/
def bTwo : Board := ⟨1, 2, [[Cell.empty, Cell.empty]]⟩

/-! ## Theorems -/

/-! ### Evaluator lemmas: per-segment contribution and sign symmetry (C2) -/

theorem opponent_opponent (p : Player) : opponent (opponent p) = p := by
  cases p <;> rfl

theorem window4_length_le (l : List Cell) (i : Nat) : (window4 l i).length ≤ 4 := by
  simp only [window4, List.length_take]
  omega

theorem segments_length_le (b : Board) : ∀ s ∈ segments b, s.length ≤ 4 := by
  intro s hs
  simp only [segments, List.mem_append, List.mem_flatMap, List.mem_map] at hs
  rcases hs with ((⟨_, _, _, _, h⟩ | ⟨_, _, _, _, h⟩) | ⟨_, _, _, _, h⟩) | ⟨_, _, _, _, h⟩ <;>
    rw [← h] <;> exact window4_length_le _ _

theorem bump_length (l : List Int) (i : Nat) : (bump l i).length = l.length := by
  simp [bump]

theorem dot_bump (l : List Int) (hl : l.length = 5) (i : Nat) (hi : i < 5) :
    dot (bump l i) weights = dot l weights + weights.getD i 0 := by
  match l, hl with
  | [a, b, c, d, e], _ =>
    interval_cases i <;> simp [bump, dot, weights] <;> ring

theorem evalStep_spec (p : Player) (st : List Int × List Int) (s : List Cell)
    (h1 : st.1.length = 5) (h2 : st.2.length = 5) (hs : s.length ≤ 4) :
    (evalStep p (opponent p) st s).1.length = 5 ∧
    (evalStep p (opponent p) st s).2.length = 5 ∧
    dd (evalStep p (opponent p) st s) = dd st + contrib p s := by
  have hcp : s.count (Cell.disc p) < 5 :=
    Nat.lt_of_le_of_lt (Nat.le_trans (List.count_le_length _ _) hs) (by omega)
  have hcq : s.count (Cell.disc (opponent p)) < 5 :=
    Nat.lt_of_le_of_lt (Nat.le_trans (List.count_le_length _ _) hs) (by omega)
  simp only [evalStep, contrib]
  split_ifs <;>
    simp_all [dd, bump_length, dot_bump _ h1 _ hcp, dot_bump _ h2 _ hcq] <;> ring

theorem foldl_evalStep (p : Player) (segs : List (List Cell))
    (hseg : ∀ s ∈ segs, s.length ≤ 4) :
    ∀ st : List Int × List Int, st.1.length = 5 → st.2.length = 5 →
      dd (segs.foldl (evalStep p (opponent p)) st) = dd st + (segs.map (contrib p)).sum := by
  induction segs with
  | nil => intro st _ _; simp
  | cons s rest ih =>
    intro st h1 h2
    have hs : s.length ≤ 4 := hseg s (List.mem_cons_self _ _)
    obtain ⟨k1, k2, kd⟩ := evalStep_spec p st s h1 h2 hs
    have hrest : ∀ t ∈ rest, t.length ≤ 4 := fun t ht => hseg t (List.mem_cons_of_mem _ ht)
    simp only [List.foldl_cons, List.map_cons, List.sum_cons]
    rw [ih hrest _ k1 k2, kd]
    ring

theorem evaluate_eq_sum (p : Player) (b : Board) :
    evaluate p b = ((segments b).map (contrib p)).sum := by
  have h := foldl_evalStep p (segments b) (segments_length_le b)
    ([0, 0, 0, 0, 0], [0, 0, 0, 0, 0]) (by simp) (by simp)
  have hz : dd (([0, 0, 0, 0, 0], [0, 0, 0, 0, 0]) : List Int × List Int) = 0 := by
    simp [dd, dot, weights]
  simpa [evaluate, dd, hz] using h

theorem contrib_opponent (p : Player) (s : List Cell) :
    contrib (opponent p) s = - contrib p s := by
  simp only [contrib, opponent_opponent]
  split_ifs <;> ring

theorem sum_map_neg (l : List (List Cell)) (f : List Cell → Int) :
    (l.map (fun s => - f s)).sum = - (l.map f).sum := by
  induction l with
  | nil => simp
  | cons s rest ih => simp [ih]; ring

/-- C2: swapping the subject player exactly negates the evaluator's score. -/
theorem evaluate_antisymm (b : Board) (P Q : Player) (h : P ≠ Q) :
    evaluate P b = - evaluate Q b := by
  have hQ : P = opponent Q := by cases P <;> cases Q <;> simp_all [opponent]
  subst hQ
  rw [evaluate_eq_sum, evaluate_eq_sum,
    show contrib (opponent Q) = fun s => - contrib Q s from funext fun s => contrib_opponent Q s]
  exact sum_map_neg _ _

/-- Witness for C2 at a board with a nonzero score. -/
theorem evaluate_antisymm_witness :
    Player.one ≠ Player.two ∧ evaluate Player.one bRow = - evaluate Player.two bRow :=
  ⟨by decide, evaluate_antisymm bRow Player.one Player.two (by decide)⟩

example : evaluate Player.one bRow = 4 := by decide

/-! ### Terminal short-circuit (C4) and depth-zero behaviour (C6) -/

theorem terminalEvalMM_eq (maxP : Player) (b : Board) :
    terminalEvalMM maxP b = (none, evaluate maxP b) := by
  unfold terminalEvalMM; split_ifs <;> rfl

theorem terminalEvalAB_eq (maxP : Player) (b : Board) :
    terminalEvalAB maxP b = (none, evaluate maxP b) := by
  unfold terminalEvalAB; split_ifs <;> rfl

theorem terminalEvalEM_eq (maxP : Player) (b : Board) :
    terminalEvalEM maxP b = (none, (evaluate maxP b : ℚ)) := by
  unfold terminalEvalEM; split_ifs <;> rfl

/-- C4: on a terminal board every algorithm returns `none` with the static
evaluation for the searching player, at every depth limit, and never calls
the move generator. -/
theorem terminal_short_circuit (p : Player) (b : Board) (d : Nat) (h : b.terminal) :
    miniValue p d p b = (none, evaluate p b) ∧
    (∀ α β : Int, abValue p d p b α β = (none, evaluate p b)) ∧
    expValue p d p b = (none, (evaluate p b : ℚ)) ∧
    miniCalls p d p b = 0 ∧ (∀ α β : Int, abCalls p d p b α β = 0) ∧
    expCalls p d p b = 0 ∧
    minimax p b d = none ∧ alphabeta p b d = none ∧ expectimax p b d = none := by
  have hmm : miniValue p d p b = (none, evaluate p b) := by
    cases d <;> simp [miniValue, h, terminalEvalMM_eq]
  have hab : ∀ α β : Int, abValue p d p b α β = (none, evaluate p b) := by
    intro α β; cases d <;> simp [abValue, h, terminalEvalAB_eq]
  have hem : expValue p d p b = (none, (evaluate p b : ℚ)) := by
    cases d <;> simp [expValue, h, terminalEvalEM_eq]
  refine ⟨hmm, hab, hem, ?_, ?_, ?_, ?_, ?_, ?_⟩
  · cases d <;> simp [miniCalls, h]
  · intro α β; cases d <;> simp [abCalls, h]
  · cases d <;> simp [expCalls, h]
  · simp [minimax, hmm]
  · simp [alphabeta, hab]
  · simp [expectimax, hem]

example : bWin.terminal := by decide

/-- Witness for C4 on a concrete terminal board at depth 3. -/
theorem terminal_short_circuit_witness :
    bWin.terminal ∧ minimax Player.two bWin 3 = none :=
  ⟨by decide, (terminal_short_circuit Player.two bWin 3 (by decide)).2.2.2.2.2.2.2.1⟩

/-- C6: with depth limit 0 on a non-terminal board every algorithm degenerates
to a single static evaluation with no move chosen. -/
theorem depth_zero_static (p : Player) (b : Board) (h : ¬ b.terminal) :
    miniValue p 0 p b = (none, evaluate p b) ∧
    abValue p 0 p b (-maxsize) maxsize = (none, evaluate p b) ∧
    expValue p 0 p b = (none, (evaluate p b : ℚ)) ∧
    minimax p b 0 = none ∧ alphabeta p b 0 = none ∧ expectimax p b 0 = none := by
  refine ⟨by simp [miniValue, h], by simp [abValue, h], by simp [expValue, h], ?_, ?_, ?_⟩
  · simp [minimax, miniValue, h]
  · simp [alphabeta, abValue, h]
  · simp [expectimax, expValue, h]

/-- Witness for C6 on a concrete non-terminal board. -/
theorem depth_zero_static_witness :
    ¬ bRow.terminal ∧ minimax Player.one bRow 0 = none :=
  ⟨by decide, (depth_zero_static Player.one bRow (by decide)).2.2.2.1⟩

/-- Counterexample to C5 as stated: `bWin` has a placeable column (a legal
move exists), yet every search returns `none` at depth 1 because the board is
terminal by a win. -/
theorem search_none_despite_legal_move :
    bWin.placeable 1 ∧ minimax Player.two bWin 1 = none ∧
    alphabeta Player.two bWin 1 = none ∧ expectimax Player.two bWin 1 = none := by
  refine ⟨by decide, by decide, by decide, by decide⟩

/-! ### The move generator (C7) -/

theorem foldl_children (p : Player) (b : Board) (cs : List Nat) :
    ∀ acc : List (Nat × Board),
      cs.foldl (fun res c => if b.placeable c then res ++ [(c, (b.clone).place p c)] else res) acc
      = acc ++ (cs.filter (fun c => decide (b.placeable c))).map
          (fun c => (c, (b.clone).place p c)) := by
  induction cs with
  | nil => intro acc; simp
  | cons c rest ih =>
    intro acc
    by_cases hc : b.placeable c <;> simp [hc, ih, List.append_assoc]

theorem get_child_boards_eq (p : Player) (b : Board) :
    get_child_boards p b
      = ((List.range b.cols).filter (fun c => decide (b.placeable c))).map
          (fun c => (c, (b.clone).place p c)) := by
  simpa [get_child_boards] using foldl_children p b (List.range b.cols) []

theorem get_child_boards_fst (p : Player) (b : Board) :
    (get_child_boards p b).map Prod.fst
      = (List.range b.cols).filter (fun c => decide (b.placeable c)) := by
  rw [get_child_boards_eq, List.map_map]
  exact List.map_id'' (congrFun rfl) _

theorem getD_set_ne (l : Heap) (i k : Nat) (x : Board) (d : Board) (h : i ≠ k) :
    (l.set i x).getD k d = l.getD k d := by
  simp [List.getD, List.getElem?_set, h]

theorem heapExt_rfl (h : Heap) : HeapExt h h := ⟨le_rfl, fun _ _ => rfl⟩

theorem heapExt_trans {h1 h2 h3 : Heap} (a : HeapExt h1 h2) (b : HeapExt h2 h3) :
    HeapExt h1 h3 := by
  refine ⟨le_trans a.1 b.1, fun k hk => ?_⟩
  rw [b.2 k (lt_of_lt_of_le hk a.1), a.2 k hk]

theorem clonePlace_ext (p : Player) (c i : Nat) (h : Heap) :
    HeapExt h (placeH p c (cloneH h i).1 (cloneH h i).2) := by
  constructor
  · simp [placeH, cloneH]
  · intro k hk
    simp only [placeH, cloneH, hGet]
    rw [getD_set_ne _ _ _ _ _ (by omega), List.getD_append _ _ _ _ hk]

theorem gcbLoop_ext (p : Player) (bid : Nat) :
    ∀ (cs : List Nat) (h : Heap), HeapExt h (gcbLoop p bid cs h).2 := by
  intro cs
  induction cs with
  | nil => intro h; exact heapExt_rfl h
  | cons c rest ih =>
    intro h
    by_cases hc : (hGet h bid).placeable c
    · simp only [gcbLoop, if_pos hc]
      exact heapExt_trans (clonePlace_ext p c bid h) (ih _)
    · simp only [gcbLoop, if_neg hc]
      exact ih h

theorem getChildBoardsH_ext (p : Player) (bid : Nat) (h : Heap) :
    HeapExt h (getChildBoardsH p bid h).2 :=
  gcbLoop_ext p bid _ h

/-- C7: the move generator yields exactly one pair per placeable column, in
ascending column order, each board being the clone of the input with the
player's disc placed in that column; and (in the heap model) it leaves every
pre-existing board object — in particular the input board — unmodified. -/
theorem get_child_boards_spec (p : Player) (b : Board) :
    ((get_child_boards p b).map Prod.fst
      = (List.range b.cols).filter (fun c => decide (b.placeable c))) ∧
    ((get_child_boards p b).map Prod.fst).Pairwise (· < ·) ∧
    (∀ pr ∈ get_child_boards p b, b.placeable pr.1 ∧ pr.2 = (b.clone).place p pr.1) ∧
    (∀ (i k : Nat) (h : Heap), k < h.length →
      hGet (getChildBoardsH p i h).2 k = hGet h k) := by
  have hmap := get_child_boards_fst p b
  refine ⟨hmap, ?_, ?_, ?_⟩
  · rw [hmap]
    exact (List.pairwise_lt_range _).sublist (List.filter_sublist _)
  · intro pr hpr
    rw [get_child_boards_eq] at hpr
    simp only [List.mem_map, List.mem_filter, List.mem_range] at hpr
    obtain ⟨c, ⟨_, hc⟩, rfl⟩ := hpr
    exact ⟨of_decide_eq_true hc, rfl⟩
  · intro i k h hk
    exact (getChildBoardsH_ext p i h).2 k hk

/-- Witness for C7's heap clause at a concrete one-object heap. -/
theorem get_child_boards_spec_witness :
    0 < ([bTwo] : Heap).length ∧ hGet (getChildBoardsH Player.one 0 [bTwo]).2 0 = hGet [bTwo] 0 :=
  ⟨by decide, (get_child_boards_spec Player.one bTwo).2.2.2 0 0 [bTwo] (by decide)⟩

/-! ### Division safety of the expectimax chance node (C3) -/

theorem children_ne_nil_of_not_terminal (t : Player) (b : Board) (h : ¬ b.terminal) :
    get_child_boards t b ≠ [] := by
  have hnf : ¬ b.isFull := fun hf => h (Or.inr hf)
  simp only [Board.isFull, not_forall] at hnf
  obtain ⟨c, hcr, hcp⟩ := hnf
  rw [not_not] at hcp
  intro hnil
  have : c ∈ (get_child_boards t b).map Prod.fst := by
    rw [get_child_boards_fst]
    simp only [List.mem_filter]
    exact ⟨hcr, decide_eq_true hcp⟩
  rw [hnil] at this
  simp at this

/-- C3: along the whole expectimax recursion, every chance node inspects a
non-empty move list: the `1 / len(moves)` of `expectimax.min_value` never
divides by zero, because a board with no placeable column is full and hence
terminal, and terminal boards are cut off before the move generator runs. -/
theorem expectimax_division_safe (maxP : Player) :
    ∀ (d : Nat) (t : Player) (b : Board), expSafe maxP d t b := by
  intro d
  induction d with
  | zero => intro t b; trivial
  | succ d ih =>
    intro t b
    simp only [expSafe]
    by_cases hterm : b.terminal
    · simp [hterm]
    · by_cases ht : t = maxP
      · simp only [if_neg hterm, if_pos ht]
        intro pr _
        exact ih (opponent maxP) pr.2
      · simp only [if_neg hterm, if_neg ht]
        exact ⟨children_ne_nil_of_not_terminal t b hterm, fun pr _ => ih maxP pr.2⟩

/-! ### Legality of the returned move (C9) -/

theorem miniMaxLoop_placement (f : Board → Option Nat × Int) :
    ∀ (cs : List (Nat × Board)) (pl : Option Nat) (lm : Int) (c : Nat),
      (miniMaxLoop f cs pl lm).1 = some c → pl = some c ∨ c ∈ cs.map Prod.fst := by
  intro cs
  induction cs with
  | nil => intro pl lm c hc; exact Or.inl hc
  | cons pr rest ih =>
    intro pl lm c hc
    simp only [miniMaxLoop] at hc
    split at hc
    · rcases ih _ _ _ hc with h | h
      · right; simp only [Option.some_inj] at h; simp [h]
      · right; simp [h]
    · rcases ih _ _ _ hc with h | h
      · exact Or.inl h
      · right; simp [h]

theorem miniMinLoop_placement (f : Board → Option Nat × Int) :
    ∀ (cs : List (Nat × Board)) (pl : Option Nat) (lm : Int) (c : Nat),
      (miniMinLoop f cs pl lm).1 = some c → pl = some c ∨ c ∈ cs.map Prod.fst := by
  intro cs
  induction cs with
  | nil => intro pl lm c hc; exact Or.inl hc
  | cons pr rest ih =>
    intro pl lm c hc
    simp only [miniMinLoop] at hc
    split at hc
    · rcases ih _ _ _ hc with h | h
      · right; simp only [Option.some_inj] at h; simp [h]
      · right; simp [h]
    · rcases ih _ _ _ hc with h | h
      · exact Or.inl h
      · right; simp [h]

theorem abMaxLoop_placement (f : Board → Int → Int → Option Nat × Int) (β : Int) :
    ∀ (cs : List (Nat × Board)) (pl : Option Nat) (lm α : Int) (c : Nat),
      (abMaxLoop f β cs pl lm α).1 = some c → pl = some c ∨ c ∈ cs.map Prod.fst := by
  intro cs
  induction cs with
  | nil => intro pl lm α c hc; exact Or.inl hc
  | cons pr rest ih =>
    intro pl lm α c hc
    simp only [abMaxLoop] at hc
    split at hc
    · split at hc
      · obtain rfl := Option.some_inj.mp hc
        right; simp
      · exact Or.inl hc
    · rcases ih _ _ _ _ hc with h | h
      · split at h
        · obtain rfl := Option.some_inj.mp h
          right; simp
        · exact Or.inl h
      · right; simp [h]

theorem abMinLoop_placement (f : Board → Int → Int → Option Nat × Int) (α : Int) :
    ∀ (cs : List (Nat × Board)) (pl : Option Nat) (lm β : Int) (c : Nat),
      (abMinLoop f α cs pl lm β).1 = some c → pl = some c ∨ c ∈ cs.map Prod.fst := by
  intro cs
  induction cs with
  | nil => intro pl lm β c hc; exact Or.inl hc
  | cons pr rest ih =>
    intro pl lm β c hc
    simp only [abMinLoop] at hc
    split at hc
    · split at hc
      · obtain rfl := Option.some_inj.mp hc
        right; simp
      · exact Or.inl hc
    · rcases ih _ _ _ _ hc with h | h
      · split at h
        · obtain rfl := Option.some_inj.mp h
          right; simp
        · exact Or.inl h
      · right; simp [h]

theorem expMaxLoop_placement (f : Board → Option Nat × ℚ) :
    ∀ (cs : List (Nat × Board)) (pl : Option Nat) (lm : ℚ) (c : Nat),
      (expMaxLoop f cs pl lm).1 = some c → pl = some c ∨ c ∈ cs.map Prod.fst := by
  intro cs
  induction cs with
  | nil => intro pl lm c hc; exact Or.inl hc
  | cons pr rest ih =>
    intro pl lm c hc
    simp only [expMaxLoop] at hc
    split at hc
    · rcases ih _ _ _ hc with h | h
      · right; simp only [Option.some_inj] at h; simp [h]
      · right; simp [h]
    · rcases ih _ _ _ hc with h | h
      · exact Or.inl h
      · right; simp [h]

theorem mem_children_placeable (t : Player) (b : Board) (c : Nat)
    (h : c ∈ (get_child_boards t b).map Prod.fst) : b.placeable c := by
  rw [get_child_boards_fst] at h
  simp only [List.mem_filter] at h
  exact of_decide_eq_true h.2

/-! Unfolding equations for the non-terminal recursive cases of the three
`value` functions. -/

theorem miniValue_succ_max (maxP : Player) (b : Board) (d : Nat) (hterm : ¬ b.terminal) :
    miniValue maxP (d + 1) maxP b
      = miniMaxLoop (miniValue maxP d (opponent maxP)) (get_child_boards maxP b)
          none (-maxsize) := by
  simp [miniValue, hterm]

theorem miniValue_succ_min (maxP t : Player) (b : Board) (d : Nat)
    (hterm : ¬ b.terminal) (ht : t ≠ maxP) :
    miniValue maxP (d + 1) t b
      = miniMinLoop (miniValue maxP d maxP) (get_child_boards t b) none maxsize := by
  simp [miniValue, hterm, ht]

theorem abValue_succ_max (maxP : Player) (b : Board) (d : Nat) (α β : Int)
    (hterm : ¬ b.terminal) :
    abValue maxP (d + 1) maxP b α β
      = abMaxLoop (abValue maxP d (opponent maxP)) β (get_child_boards maxP b)
          none (-maxsize) α := by
  simp [abValue, hterm]

theorem abValue_succ_min (maxP t : Player) (b : Board) (d : Nat) (α β : Int)
    (hterm : ¬ b.terminal) (ht : t ≠ maxP) :
    abValue maxP (d + 1) t b α β
      = abMinLoop (abValue maxP d maxP) α (get_child_boards t b) none maxsize β := by
  simp [abValue, hterm, ht]

theorem expValue_succ_max (maxP : Player) (b : Board) (d : Nat) (hterm : ¬ b.terminal) :
    expValue maxP (d + 1) maxP b
      = expMaxLoop (expValue maxP d (opponent maxP)) (get_child_boards maxP b)
          none (-(maxsize : ℚ)) := by
  simp [expValue, hterm]

theorem expValue_succ_min (maxP t : Player) (b : Board) (d : Nat)
    (hterm : ¬ b.terminal) (ht : t ≠ maxP) :
    expValue maxP (d + 1) t b
      = (none, expSumLoop (expValue maxP d maxP)
          (1 / ((get_child_boards t b).length : ℚ)) (get_child_boards t b) 0) := by
  simp [expValue, hterm, ht]

/-- C9: whenever a search returns a column (not `none`), that column is
placeable on the input board — every candidate move comes from the move
generator's placeability filter. -/
theorem chosen_move_placeable (p : Player) (b : Board) (d : Nat) (c : Nat) :
    (minimax p b d = some c → b.placeable c) ∧
    (alphabeta p b d = some c → b.placeable c) ∧
    (expectimax p b d = some c → b.placeable c) := by
  refine ⟨?_, ?_, ?_⟩
  · intro hc
    cases d with
    | zero =>
      simp only [minimax, miniValue] at hc
      split at hc <;> simp [terminalEvalMM_eq] at hc
    | succ d =>
      by_cases hterm : b.terminal
      · simp [minimax, miniValue, hterm, terminalEvalMM_eq] at hc
      · simp only [minimax] at hc
        rw [miniValue_succ_max p b d hterm] at hc
        rcases miniMaxLoop_placement _ _ _ _ _ hc with h | h
        · simp at h
        · exact mem_children_placeable p b c h
  · intro hc
    cases d with
    | zero =>
      simp only [alphabeta, abValue] at hc
      split at hc <;> simp [terminalEvalAB_eq] at hc
    | succ d =>
      by_cases hterm : b.terminal
      · simp [alphabeta, abValue, hterm, terminalEvalAB_eq] at hc
      · simp only [alphabeta] at hc
        rw [abValue_succ_max p b d _ _ hterm] at hc
        rcases abMaxLoop_placement _ _ _ _ _ _ _ hc with h | h
        · simp at h
        · exact mem_children_placeable p b c h
  · intro hc
    cases d with
    | zero =>
      simp only [expectimax, expValue] at hc
      split at hc <;> simp [terminalEvalEM_eq] at hc
    | succ d =>
      by_cases hterm : b.terminal
      · simp [expectimax, expValue, hterm, terminalEvalEM_eq] at hc
      · simp only [expectimax] at hc
        rw [expValue_succ_max p b d hterm] at hc
        rcases expMaxLoop_placement _ _ _ _ _ hc with h | h
        · simp at h
        · exact mem_children_placeable p b c h

/-- Witness for C9: on `bRow` at depth 1 minimax chooses column 2, which is
indeed placeable. -/
theorem chosen_move_placeable_witness :
    minimax Player.one bRow 1 = some 2 ∧ bRow.placeable 2 :=
  ⟨by decide, (chosen_move_placeable Player.one bRow 1 2).1 (by decide)⟩

/-! ### Frame property of the searches in the heap model (C10) -/

theorem miniMaxLoopH_ext (f : Nat → Heap → (Option Nat × Int) × Heap)
    (hf : ∀ x h, HeapExt h (f x h).2) :
    ∀ (cs : List (Nat × Nat)) (pl : Option Nat) (lm : Int) (h : Heap),
      HeapExt h (miniMaxLoopH f cs pl lm h).2 := by
  intro cs
  induction cs with
  | nil => intro pl lm h; exact heapExt_rfl h
  | cons pr rest ih =>
    intro pl lm h
    simp only [miniMaxLoopH]
    split <;> exact heapExt_trans (hf _ _) (ih _ _ _)

theorem miniMinLoopH_ext (f : Nat → Heap → (Option Nat × Int) × Heap)
    (hf : ∀ x h, HeapExt h (f x h).2) :
    ∀ (cs : List (Nat × Nat)) (pl : Option Nat) (lm : Int) (h : Heap),
      HeapExt h (miniMinLoopH f cs pl lm h).2 := by
  intro cs
  induction cs with
  | nil => intro pl lm h; exact heapExt_rfl h
  | cons pr rest ih =>
    intro pl lm h
    simp only [miniMinLoopH]
    split <;> exact heapExt_trans (hf _ _) (ih _ _ _)

theorem abMaxLoopH_ext (f : Nat → Int → Int → Heap → (Option Nat × Int) × Heap) (β : Int)
    (hf : ∀ x α' β' h, HeapExt h (f x α' β' h).2) :
    ∀ (cs : List (Nat × Nat)) (pl : Option Nat) (lm α : Int) (h : Heap),
      HeapExt h (abMaxLoopH f β cs pl lm α h).2 := by
  intro cs
  induction cs with
  | nil => intro pl lm α h; exact heapExt_rfl h
  | cons pr rest ih =>
    intro pl lm α h
    simp only [abMaxLoopH]
    split
    · exact hf _ _ _ _
    · exact heapExt_trans (hf _ _ _ _) (ih _ _ _ _)

theorem abMinLoopH_ext (f : Nat → Int → Int → Heap → (Option Nat × Int) × Heap) (α : Int)
    (hf : ∀ x α' β' h, HeapExt h (f x α' β' h).2) :
    ∀ (cs : List (Nat × Nat)) (pl : Option Nat) (lm β : Int) (h : Heap),
      HeapExt h (abMinLoopH f α cs pl lm β h).2 := by
  intro cs
  induction cs with
  | nil => intro pl lm β h; exact heapExt_rfl h
  | cons pr rest ih =>
    intro pl lm β h
    simp only [abMinLoopH]
    split
    · exact hf _ _ _ _
    · exact heapExt_trans (hf _ _ _ _) (ih _ _ _ _)

theorem expMaxLoopH_ext (f : Nat → Heap → (Option Nat × ℚ) × Heap)
    (hf : ∀ x h, HeapExt h (f x h).2) :
    ∀ (cs : List (Nat × Nat)) (pl : Option Nat) (lm : ℚ) (h : Heap),
      HeapExt h (expMaxLoopH f cs pl lm h).2 := by
  intro cs
  induction cs with
  | nil => intro pl lm h; exact heapExt_rfl h
  | cons pr rest ih =>
    intro pl lm h
    simp only [expMaxLoopH]
    split <;> exact heapExt_trans (hf _ _) (ih _ _ _)

theorem expSumLoopH_ext (f : Nat → Heap → (Option Nat × ℚ) × Heap) (prob : ℚ)
    (hf : ∀ x h, HeapExt h (f x h).2) :
    ∀ (cs : List (Nat × Nat)) (acc : ℚ) (h : Heap),
      HeapExt h (expSumLoopH f prob cs acc h).2 := by
  intro cs
  induction cs with
  | nil => intro acc h; exact heapExt_rfl h
  | cons pr rest ih =>
    intro acc h
    simp only [expSumLoopH]
    exact heapExt_trans (hf _ _) (ih _ _)

theorem miniValueH_ext (maxP : Player) :
    ∀ (d : Nat) (t : Player) (bid : Nat) (h : Heap),
      HeapExt h (miniValueH maxP d t bid h).2 := by
  intro d
  induction d with
  | zero => intro t bid h; exact heapExt_rfl h
  | succ d ih =>
    intro t bid h
    simp only [miniValueH]
    split
    · exact heapExt_rfl h
    · split
      · exact heapExt_trans (getChildBoardsH_ext t bid h)
          (miniMaxLoopH_ext _ (fun x h' => ih _ x h') _ _ _ _)
      · exact heapExt_trans (getChildBoardsH_ext t bid h)
          (miniMinLoopH_ext _ (fun x h' => ih _ x h') _ _ _ _)

theorem abValueH_ext (maxP : Player) :
    ∀ (d : Nat) (t : Player) (bid : Nat) (α β : Int) (h : Heap),
      HeapExt h (abValueH maxP d t bid α β h).2 := by
  intro d
  induction d with
  | zero => intro t bid α β h; exact heapExt_rfl h
  | succ d ih =>
    intro t bid α β h
    simp only [abValueH]
    split
    · exact heapExt_rfl h
    · split
      · exact heapExt_trans (getChildBoardsH_ext t bid h)
          (abMaxLoopH_ext _ _ (fun x α' β' h' => ih _ x α' β' h') _ _ _ _ _)
      · exact heapExt_trans (getChildBoardsH_ext t bid h)
          (abMinLoopH_ext _ _ (fun x α' β' h' => ih _ x α' β' h') _ _ _ _ _)

theorem expValueH_ext (maxP : Player) :
    ∀ (d : Nat) (t : Player) (bid : Nat) (h : Heap),
      HeapExt h (expValueH maxP d t bid h).2 := by
  intro d
  induction d with
  | zero => intro t bid h; exact heapExt_rfl h
  | succ d ih =>
    intro t bid h
    simp only [expValueH]
    split
    · exact heapExt_rfl h
    · split
      · exact heapExt_trans (getChildBoardsH_ext t bid h)
          (expMaxLoopH_ext _ (fun x h' => ih _ x h') _ _ _ _)
      · exact heapExt_trans (getChildBoardsH_ext t bid h)
          (expSumLoopH_ext _ _ (fun x h' => ih _ x h') _ _ _)

/-- C10: in the heap model, running any of the three searches leaves every
pre-existing board object — in particular the caller's input board — exactly
as it was: all mutation happens on clones allocated by the move generator. -/
theorem search_frame (p : Player) (d : Nat) (bid k : Nat) (h : Heap)
    (hk : k < h.length) :
    hGet (minimaxH p bid d h).2 k = hGet h k ∧
    hGet (alphabetaH p bid d h).2 k = hGet h k ∧
    hGet (expectimaxH p bid d h).2 k = hGet h k :=
  ⟨(miniValueH_ext p d p bid h).2 k hk,
   (abValueH_ext p d p bid (-maxsize) maxsize h).2 k hk,
   (expValueH_ext p d p bid h).2 k hk⟩

/-- Witness for C10 at a concrete one-object heap. -/
theorem search_frame_witness :
    0 < ([bRow] : Heap).length ∧ hGet (minimaxH Player.one 0 1 [bRow]).2 0 = hGet [bRow] 0 :=
  ⟨by decide, (search_frame Player.one 1 0 0 [bRow] (by decide)).1⟩

/-! ### The expectimax chance node is a weighted average (C8) -/

theorem expSumLoop_eq (f : Board → Option Nat × ℚ) (prob : ℚ) :
    ∀ (cs : List (Nat × Board)) (acc : ℚ),
      expSumLoop f prob cs acc = acc + prob * ((cs.map (fun pr => (f pr.2).2)).sum) := by
  intro cs
  induction cs with
  | nil => intro acc; simp [expSumLoop]
  | cons pr rest ih =>
    intro acc
    simp only [expSumLoop, List.map_cons, List.sum_cons, ih]
    ring

theorem getD_length_map (l : List (List Cell)) (i : Nat) :
    (l.getD i []).length = (l.map List.length).getD i 0 := by
  induction l generalizing i with
  | nil => cases i <;> rfl
  | cons x xs ih =>
    cases i with
    | zero => rfl
    | succ n => exact ih n

theorem minLen_eq (ls : List (List Cell)) : minLen ls = minLenN (ls.map List.length) := by
  cases ls with
  | nil => rfl
  | cons l rest => simp [minLen, minLenN, List.foldl_map]

theorem flatMap_const_length {α β : Type} (l : List α) (f : α → List β) (k : Nat)
    (h : ∀ a ∈ l, (f a).length = k) : (l.flatMap f).length = l.length * k := by
  induction l with
  | nil => simp
  | cons a rest ih =>
    have ha := h a (List.mem_cons_self _ _)
    have hrest := ih (fun x hx => h x (List.mem_cons_of_mem _ hx))
    simp only [List.flatMap_cons, List.length_append, List.length_cons, ha, hrest]
    ring

theorem leftRevolved_lens (b : Board) :
    (leftRevolved b).map List.length = lrLens b.rows (b.grid.map List.length) := by
  simp only [leftRevolved, lrLens, List.map_map]
  apply List.map_congr_left
  intro r _
  simp only [Function.comp_apply, List.length_append, List.length_replicate, Board.row]
  rw [getD_length_map]

theorem rightRevolved_lens (b : Board) :
    (rightRevolved b).map List.length = rrLens b.rows (b.grid.map List.length) := by
  simp only [rightRevolved, rrLens, List.map_map]
  apply List.map_congr_left
  intro r _
  simp only [Function.comp_apply, List.length_append, List.length_replicate, Board.row]
  rw [getD_length_map]

theorem segments_length_eq (b : Board) :
    (segments b).length = segCount b.rows b.cols (b.grid.map List.length) := by
  have hz1 : (pyZip (leftRevolved b)).length
      = minLenN (lrLens b.rows (b.grid.map List.length)) := by
    rw [pyZip, List.length_map, List.length_range, minLen_eq, leftRevolved_lens]
  have hz2 : (pyZip (rightRevolved b)).length
      = minLenN (rrLens b.rows (b.grid.map List.length)) := by
    rw [pyZip, List.length_map, List.length_range, minLen_eq, rightRevolved_lens]
  simp only [segments, List.length_append]
  rw [flatMap_const_length _ _ (b.cols - 3) (fun a _ => by simp),
    flatMap_const_length _ _ (b.rows - 3) (fun a _ => by simp),
    flatMap_const_length _ _ (b.rows - 3) (fun a _ => by simp),
    flatMap_const_length _ _ (b.rows - 3) (fun a _ => by simp),
    List.length_range, List.length_range, hz1, hz2, segCount]

theorem map_length_set (l : List (List Cell)) (i : Nat) (x : List Cell)
    (hx : x.length = (l.getD i []).length) :
    (l.set i x).map List.length = l.map List.length := by
  induction l generalizing i with
  | nil => simp
  | cons y ys ih =>
    cases i with
    | zero => simp_all
    | succ n => simp_all

theorem clone_eq (b : Board) : b.clone = b := rfl

theorem place_shape (b : Board) (p : Player) (c : Nat) : shape (b.place p c) = shape b := by
  unfold Board.place
  split
  · simp only [shape]
    rw [map_length_set _ _ _ (by simp)]
  · rfl

theorem SB_eq_of_shape (b b' : Board) (h : shape b = shape b') : SB b = SB b' := by
  simp only [shape, Prod.mk.injEq] at h
  simp only [SB, segments_length_eq, h.1, h.2.1, h.2.2]

theorem mem_children_snd (t : Player) (b : Board) (pr : Nat × Board)
    (h : pr ∈ get_child_boards t b) : pr.2 = (b.clone).place t pr.1 := by
  rw [get_child_boards_eq] at h
  simp only [List.mem_map] at h
  obtain ⟨c, _, rfl⟩ := h
  rfl

theorem SB_child (t : Player) (b : Board) (pr : Nat × Board)
    (h : pr ∈ get_child_boards t b) : SB pr.2 = SB b := by
  rw [mem_children_snd t b pr h, clone_eq]
  exact SB_eq_of_shape _ _ (place_shape b t pr.1)

theorem SB_nonneg (b : Board) : 0 ≤ SB b := by
  simp only [SB]
  positivity

theorem maxsize_pos : 0 < maxsize := by decide

theorem weights_getD_bound (i : Nat) : 0 ≤ weights.getD i 0 ∧ weights.getD i 0 ≤ 1000 := by
  match i with
  | 0 => decide
  | 1 => decide
  | 2 => decide
  | 3 => decide
  | 4 => decide
  | n + 5 =>
    have h : weights.getD (n + 5) 0 = 0 := List.getD_eq_default _ _ (by simp [weights])
    rw [h]
    exact ⟨le_rfl, by omega⟩

theorem contrib_bound (p : Player) (s : List Cell) :
    -1000 ≤ contrib p s ∧ contrib p s ≤ 1000 := by
  unfold contrib
  have h1 := weights_getD_bound (s.count (Cell.disc p))
  have h2 := weights_getD_bound (s.count (Cell.disc (opponent p)))
  split_ifs <;> omega

theorem sum_bound (l : List Int) (C : Int) (h : ∀ x ∈ l, -C ≤ x ∧ x ≤ C) :
    -(C * l.length) ≤ l.sum ∧ l.sum ≤ C * l.length := by
  induction l with
  | nil => simp
  | cons x xs ih =>
    have hx := h x (List.mem_cons_self _ _)
    have hxs := ih (fun y hy => h y (List.mem_cons_of_mem _ hy))
    simp only [List.sum_cons, List.length_cons]
    have hexp : C * (((xs.length : Nat) : Int) + 1) = C * xs.length + C := by ring
    push_cast
    push_cast at hxs
    constructor <;> linarith [hxs.1, hxs.2, hx.1, hx.2]

theorem evaluate_bound (p : Player) (b : Board) :
    -(SB b) ≤ evaluate p b ∧ evaluate p b ≤ SB b := by
  rw [evaluate_eq_sum]
  have h := sum_bound ((segments b).map (contrib p)) 1000 (by
    intro x hx
    simp only [List.mem_map] at hx
    obtain ⟨s, _, rfl⟩ := hx
    exact contrib_bound p s)
  rw [List.length_map] at h
  exact h

/-! ### Folded max/min bookkeeping for the search loops -/

theorem le_foldl_max {γ : Type} [LinearOrder γ] (g : Nat × Board → γ) :
    ∀ (cs : List (Nat × Board)) (lm : γ), lm ≤ cs.foldl (fun m pr => max m (g pr)) lm := by
  intro cs
  induction cs with
  | nil => intro lm; exact le_rfl
  | cons pr rest ih =>
    intro lm
    exact le_trans (le_max_left _ _) (ih (max lm (g pr)))

theorem mem_le_foldl_max {γ : Type} [LinearOrder γ] (g : Nat × Board → γ) :
    ∀ (cs : List (Nat × Board)) (lm : γ) (pr : Nat × Board), pr ∈ cs →
      g pr ≤ cs.foldl (fun m pr => max m (g pr)) lm := by
  intro cs
  induction cs with
  | nil => intro lm pr hpr; cases hpr
  | cons x rest ih =>
    intro lm pr hpr
    rcases List.mem_cons.mp hpr with rfl | hpr
    · exact le_trans (le_max_right _ _) (le_foldl_max g rest _)
    · exact ih _ _ hpr

theorem foldl_max_le {γ : Type} [LinearOrder γ] (g : Nat × Board → γ) (hi : γ) :
    ∀ (cs : List (Nat × Board)) (lm : γ), lm ≤ hi → (∀ pr ∈ cs, g pr ≤ hi) →
      cs.foldl (fun m pr => max m (g pr)) lm ≤ hi := by
  intro cs
  induction cs with
  | nil => intro lm hlm _; exact hlm
  | cons x rest ih =>
    intro lm hlm hch
    exact ih _ (max_le hlm (hch x (List.mem_cons_self _ _)))
      (fun pr hpr => hch pr (List.mem_cons_of_mem _ hpr))

theorem foldl_min_le {γ : Type} [LinearOrder γ] (g : Nat × Board → γ) :
    ∀ (cs : List (Nat × Board)) (lm : γ), cs.foldl (fun m pr => min m (g pr)) lm ≤ lm := by
  intro cs
  induction cs with
  | nil => intro lm; exact le_rfl
  | cons pr rest ih =>
    intro lm
    exact le_trans (ih (min lm (g pr))) (min_le_left _ _)

theorem foldl_min_le_mem {γ : Type} [LinearOrder γ] (g : Nat × Board → γ) :
    ∀ (cs : List (Nat × Board)) (lm : γ) (pr : Nat × Board), pr ∈ cs →
      cs.foldl (fun m pr => min m (g pr)) lm ≤ g pr := by
  intro cs
  induction cs with
  | nil => intro lm pr hpr; cases hpr
  | cons x rest ih =>
    intro lm pr hpr
    rcases List.mem_cons.mp hpr with rfl | hpr
    · exact le_trans (foldl_min_le g rest _) (min_le_right _ _)
    · exact ih _ _ hpr

theorem le_foldl_min {γ : Type} [LinearOrder γ] (g : Nat × Board → γ) (lo : γ) :
    ∀ (cs : List (Nat × Board)) (lm : γ), lo ≤ lm → (∀ pr ∈ cs, lo ≤ g pr) →
      lo ≤ cs.foldl (fun m pr => min m (g pr)) lm := by
  intro cs
  induction cs with
  | nil => intro lm hlm _; exact hlm
  | cons x rest ih =>
    intro lm hlm hch
    exact ih _ (le_min hlm (hch x (List.mem_cons_self _ _)))
      (fun pr hpr => hch pr (List.mem_cons_of_mem _ hpr))

theorem miniMaxLoop_snd (f : Board → Option Nat × Int) :
    ∀ (cs : List (Nat × Board)) (pl : Option Nat) (lm : Int),
      (miniMaxLoop f cs pl lm).2 = cs.foldl (fun m pr => max m (f pr.2).2) lm := by
  intro cs
  induction cs with
  | nil => intro pl lm; rfl
  | cons pr rest ih =>
    intro pl lm
    by_cases hs : (f pr.2).2 > lm
    · simp only [miniMaxLoop, if_pos hs, ih, List.foldl_cons]
      congr 1
      omega
    · simp only [miniMaxLoop, if_neg hs, ih, List.foldl_cons]
      congr 1
      omega

theorem miniMinLoop_snd (f : Board → Option Nat × Int) :
    ∀ (cs : List (Nat × Board)) (pl : Option Nat) (lm : Int),
      (miniMinLoop f cs pl lm).2 = cs.foldl (fun m pr => min m (f pr.2).2) lm := by
  intro cs
  induction cs with
  | nil => intro pl lm; rfl
  | cons pr rest ih =>
    intro pl lm
    by_cases hs : (f pr.2).2 < lm
    · simp only [miniMinLoop, if_pos hs, ih, List.foldl_cons]
      congr 1
      omega
    · simp only [miniMinLoop, if_neg hs, ih, List.foldl_cons]
      congr 1
      omega

theorem expMaxLoop_snd (f : Board → Option Nat × ℚ) :
    ∀ (cs : List (Nat × Board)) (pl : Option Nat) (lm : ℚ),
      (expMaxLoop f cs pl lm).2 = cs.foldl (fun m pr => max m (f pr.2).2) lm := by
  intro cs
  induction cs with
  | nil => intro pl lm; rfl
  | cons pr rest ih =>
    intro pl lm
    by_cases hs : (f pr.2).2 > lm
    · simp only [expMaxLoop, if_pos hs, ih, List.foldl_cons]
      congr 1
      exact (max_eq_right hs.le).symm
    · simp only [expMaxLoop, if_neg hs, ih, List.foldl_cons]
      congr 1
      exact (max_eq_left (not_lt.mp hs)).symm

/-! ### Score bounds for the three value functions -/

theorem miniValue_bound (maxP : Player) :
    ∀ (d : Nat) (t : Player) (b : Board), SB b < maxsize →
      -(SB b) ≤ (miniValue maxP d t b).2 ∧ (miniValue maxP d t b).2 ≤ SB b := by
  intro d
  induction d with
  | zero =>
    intro t b _
    unfold miniValue
    split
    · rw [terminalEvalMM_eq]
      exact evaluate_bound maxP b
    · exact evaluate_bound maxP b
  | succ d ih =>
    intro t b hSB
    by_cases hterm : b.terminal
    · have : miniValue maxP (d + 1) t b = (none, evaluate maxP b) := by
        simp [miniValue, hterm, terminalEvalMM_eq]
      rw [this]
      exact evaluate_bound maxP b
    · have hcs := children_ne_nil_of_not_terminal t b hterm
      obtain ⟨pr0, hpr0⟩ := List.exists_mem_of_ne_nil _ hcs
      have hchSB : ∀ pr ∈ get_child_boards t b, SB pr.2 = SB b :=
        fun pr hpr => SB_child t b pr hpr
      by_cases ht : t = maxP
      · subst ht
        rw [miniValue_succ_max _ _ _ hterm, miniMaxLoop_snd]
        constructor
        · refine le_trans ?_ (mem_le_foldl_max _ _ _ pr0 hpr0)
          rw [← hchSB pr0 hpr0]
          exact (ih (opponent t) pr0.2 (by rw [hchSB pr0 hpr0]; exact hSB)).1
        · refine foldl_max_le _ _ _ _ (by have := SB_nonneg b; omega) ?_
          intro pr hpr
          rw [← hchSB pr hpr]
          exact (ih (opponent t) pr.2 (by rw [hchSB pr hpr]; exact hSB)).2
      · rw [miniValue_succ_min _ _ _ _ hterm ht, miniMinLoop_snd]
        constructor
        · refine le_foldl_min _ _ _ _ (by have := SB_nonneg b; omega) ?_
          intro pr hpr
          rw [← hchSB pr hpr]
          exact (ih maxP pr.2 (by rw [hchSB pr hpr]; exact hSB)).1
        · refine le_trans (foldl_min_le_mem _ _ _ pr0 hpr0) ?_
          rw [← hchSB pr0 hpr0]
          exact (ih maxP pr0.2 (by rw [hchSB pr0 hpr0]; exact hSB)).2

theorem abMaxLoop_bound_inv (fA : Board → Int → Int → Option Nat × Int) (β lo hi : Int) :
    ∀ (cs : List (Nat × Board)) (pl : Option Nat) (lm α : Int),
      (∀ pr ∈ cs, ∀ α', lo ≤ (fA pr.2 α' β).2 ∧ (fA pr.2 α' β).2 ≤ hi) →
      lo ≤ lm → lm ≤ hi →
      lo ≤ (abMaxLoop fA β cs pl lm α).2 ∧ (abMaxLoop fA β cs pl lm α).2 ≤ hi := by
  intro cs
  induction cs with
  | nil => intro pl lm α _ h1 h2; exact ⟨h1, h2⟩
  | cons pr rest ih =>
    intro pl lm α hch h1 h2
    have hs := hch pr (List.mem_cons_self _ _) α
    have hrest : ∀ x ∈ rest, ∀ α', lo ≤ (fA x.2 α' β).2 ∧ (fA x.2 α' β).2 ≤ hi :=
      fun x hx => hch x (List.mem_cons_of_mem _ hx)
    simp only [abMaxLoop]
    split
    · split <;> constructor <;> omega
    · split <;> [exact ih _ _ _ hrest (by omega) (by omega);
        exact ih _ _ _ hrest h1 h2]

theorem abMinLoop_bound_inv (fA : Board → Int → Int → Option Nat × Int) (α lo hi : Int) :
    ∀ (cs : List (Nat × Board)) (pl : Option Nat) (lm β : Int),
      (∀ pr ∈ cs, ∀ β', lo ≤ (fA pr.2 α β').2 ∧ (fA pr.2 α β').2 ≤ hi) →
      lo ≤ lm → lm ≤ hi →
      lo ≤ (abMinLoop fA α cs pl lm β).2 ∧ (abMinLoop fA α cs pl lm β).2 ≤ hi := by
  intro cs
  induction cs with
  | nil => intro pl lm β _ h1 h2; exact ⟨h1, h2⟩
  | cons pr rest ih =>
    intro pl lm β hch h1 h2
    have hs := hch pr (List.mem_cons_self _ _) β
    have hrest : ∀ x ∈ rest, ∀ β', lo ≤ (fA x.2 α β').2 ∧ (fA x.2 α β').2 ≤ hi :=
      fun x hx => hch x (List.mem_cons_of_mem _ hx)
    simp only [abMinLoop]
    split
    · split <;> constructor <;> omega
    · split <;> [exact ih _ _ _ hrest (by omega) (by omega);
        exact ih _ _ _ hrest h1 h2]

theorem abMaxLoop_bound (fA : Board → Int → Int → Option Nat × Int) (β lo hi : Int)
    (hlo : -maxsize < lo) (hlohi : lo ≤ hi) :
    ∀ (cs : List (Nat × Board)) (pl : Option Nat) (α : Int), cs ≠ [] →
      (∀ pr ∈ cs, ∀ α', lo ≤ (fA pr.2 α' β).2 ∧ (fA pr.2 α' β).2 ≤ hi) →
      lo ≤ (abMaxLoop fA β cs pl (-maxsize) α).2 ∧
        (abMaxLoop fA β cs pl (-maxsize) α).2 ≤ hi := by
  intro cs pl α hne hch
  cases cs with
  | nil => exact absurd rfl hne
  | cons pr rest =>
    have hs := hch pr (List.mem_cons_self _ _) α
    have hrest : ∀ x ∈ rest, ∀ α', lo ≤ (fA x.2 α' β).2 ∧ (fA x.2 α' β).2 ≤ hi :=
      fun x hx => hch x (List.mem_cons_of_mem _ hx)
    simp only [abMaxLoop]
    have hgt : (fA pr.2 α β).2 > -maxsize := by omega
    rw [if_pos hgt]
    split
    · exact ⟨hs.1, hs.2⟩
    · exact abMaxLoop_bound_inv fA β lo hi rest _ _ _ hrest hs.1 hs.2

theorem abMinLoop_bound (fA : Board → Int → Int → Option Nat × Int) (α lo hi : Int)
    (hhi : hi < maxsize) (hlohi : lo ≤ hi) :
    ∀ (cs : List (Nat × Board)) (pl : Option Nat) (β : Int), cs ≠ [] →
      (∀ pr ∈ cs, ∀ β', lo ≤ (fA pr.2 α β').2 ∧ (fA pr.2 α β').2 ≤ hi) →
      lo ≤ (abMinLoop fA α cs pl maxsize β).2 ∧
        (abMinLoop fA α cs pl maxsize β).2 ≤ hi := by
  intro cs pl β hne hch
  cases cs with
  | nil => exact absurd rfl hne
  | cons pr rest =>
    have hs := hch pr (List.mem_cons_self _ _) β
    have hrest : ∀ x ∈ rest, ∀ β', lo ≤ (fA x.2 α β').2 ∧ (fA x.2 α β').2 ≤ hi :=
      fun x hx => hch x (List.mem_cons_of_mem _ hx)
    simp only [abMinLoop]
    have hlt : (fA pr.2 α β).2 < maxsize := by omega
    rw [if_pos hlt]
    split
    · exact ⟨hs.1, hs.2⟩
    · exact abMinLoop_bound_inv fA α lo hi rest _ _ _ hrest hs.1 hs.2

theorem abValue_bound (maxP : Player) :
    ∀ (d : Nat) (t : Player) (b : Board) (α β : Int), SB b < maxsize →
      -(SB b) ≤ (abValue maxP d t b α β).2 ∧ (abValue maxP d t b α β).2 ≤ SB b := by
  intro d
  induction d with
  | zero =>
    intro t b α β _
    unfold abValue
    split
    · rw [terminalEvalAB_eq]
      exact evaluate_bound maxP b
    · exact evaluate_bound maxP b
  | succ d ih =>
    intro t b α β hSB
    by_cases hterm : b.terminal
    · have : abValue maxP (d + 1) t b α β = (none, evaluate maxP b) := by
        simp [abValue, hterm, terminalEvalAB_eq]
      rw [this]
      exact evaluate_bound maxP b
    · have hcs := children_ne_nil_of_not_terminal t b hterm
      have hchSB : ∀ pr ∈ get_child_boards t b, SB pr.2 = SB b :=
        fun pr hpr => SB_child t b pr hpr
      by_cases ht : t = maxP
      · subst ht
        rw [abValue_succ_max _ _ _ _ _ hterm]
        refine abMaxLoop_bound _ _ _ _ (by have := SB_nonneg b; omega)
          (by have := SB_nonneg b; omega) _ _ _ hcs ?_
        intro pr hpr α'
        rw [← hchSB pr hpr]
        exact ih (opponent t) pr.2 α' β (by rw [hchSB pr hpr]; exact hSB)
      · rw [abValue_succ_min _ _ _ _ _ _ hterm ht]
        refine abMinLoop_bound _ _ _ _ (by omega)
          (by have := SB_nonneg b; omega) _ _ _ hcs ?_
        intro pr hpr β'
        rw [← hchSB pr hpr]
        exact ih maxP pr.2 α β' (by rw [hchSB pr hpr]; exact hSB)

theorem expValue_bound (maxP : Player) :
    ∀ (d : Nat) (t : Player) (b : Board), SB b < maxsize →
      -((SB b : ℚ)) ≤ (expValue maxP d t b).2 ∧ (expValue maxP d t b).2 ≤ (SB b : ℚ) := by
  intro d
  induction d with
  | zero =>
    intro t b _
    have hev := evaluate_bound maxP b
    unfold expValue
    split
    · rw [terminalEvalEM_eq]
      constructor <;> simp <;> exact_mod_cast (by omega)
    · constructor <;> simp <;> exact_mod_cast (by omega)
  | succ d ih =>
    intro t b hSB
    have hev := evaluate_bound maxP b
    by_cases hterm : b.terminal
    · have : expValue maxP (d + 1) t b = (none, (evaluate maxP b : ℚ)) := by
        simp [expValue, hterm, terminalEvalEM_eq]
      rw [this]
      constructor <;> simp <;> exact_mod_cast (by omega)
    · have hcs := children_ne_nil_of_not_terminal t b hterm
      obtain ⟨pr0, hpr0⟩ := List.exists_mem_of_ne_nil _ hcs
      have hchSB : ∀ pr ∈ get_child_boards t b, SB pr.2 = SB b :=
        fun pr hpr => SB_child t b pr hpr
      have hSBq : (0 : ℚ) ≤ (SB b : ℚ) := by exact_mod_cast SB_nonneg b
      have hMq : (SB b : ℚ) < (maxsize : ℚ) := by exact_mod_cast hSB
      by_cases ht : t = maxP
      · subst ht
        rw [expValue_succ_max _ _ _ hterm, expMaxLoop_snd]
        constructor
        · refine le_trans ?_ (mem_le_foldl_max _ _ _ pr0 hpr0)
          have := (ih (opponent t) pr0.2 (by rw [hchSB pr0 hpr0]; exact hSB)).1
          rw [hchSB pr0 hpr0] at this
          exact this
        · refine foldl_max_le _ _ _ _ (by linarith [maxsize_pos]) ?_
          intro pr hpr
          have := (ih (opponent t) pr.2 (by rw [hchSB pr hpr]; exact hSB)).2
          rw [hchSB pr hpr] at this
          exact this
      · rw [expValue_succ_min _ _ _ _ hterm ht]
        simp only [expSumLoop_eq, zero_add]
        set scores := (get_child_boards t b).map (fun pr => (expValue maxP d maxP pr.2).2)
          with hsc
        have hlen : ((get_child_boards t b).length : ℚ) = (scores.length : ℚ) := by
          rw [hsc, List.length_map]
        have hbnd : ∀ x ∈ scores, -((SB b : ℚ)) ≤ x ∧ x ≤ (SB b : ℚ) := by
          intro x hx
          rw [hsc] at hx
          simp only [List.mem_map] at hx
          obtain ⟨pr, hpr, rfl⟩ := hx
          have := ih maxP pr.2 (by rw [hchSB pr hpr]; exact hSB)
          rw [hchSB pr hpr] at this
          exact this
        have hn : 0 < scores.length := by
          rw [hsc]
          simpa [List.length_pos] using hcs
        have hnq : (0 : ℚ) < (scores.length : ℚ) := by exact_mod_cast hn
        have hsum1 : scores.length • (-((SB b : ℚ))) ≤ scores.sum :=
          List.card_nsmul_le_sum scores _ (fun x hx => (hbnd x hx).1)
        have hsum2 : scores.sum ≤ scores.length • (SB b : ℚ) :=
          List.sum_le_card_nsmul scores _ (fun x hx => (hbnd x hx).2)
        rw [nsmul_eq_mul] at hsum1 hsum2
        rw [hlen]
        have hne0 : (scores.length : ℚ) ≠ 0 := ne_of_gt hnq
        constructor
        · calc -((SB b : ℚ))
              = (1 / (scores.length : ℚ)) * ((scores.length : ℚ) * (-((SB b : ℚ)))) := by
                rw [one_div, inv_mul_cancel_left₀ hne0]
          _ ≤ (1 / (scores.length : ℚ)) * scores.sum := by
                apply mul_le_mul_of_nonneg_left hsum1
                positivity
        · calc (1 / (scores.length : ℚ)) * scores.sum
              ≤ (1 / (scores.length : ℚ)) * ((scores.length : ℚ) * (SB b : ℚ)) := by
                apply mul_le_mul_of_nonneg_left hsum2
                positivity
          _ = (SB b : ℚ) := by rw [one_div, inv_mul_cancel_left₀ hne0]

/-! ### When exactly the searches return `none` (amended C5) -/

theorem miniMaxLoop_ne_none (f : Board → Option Nat × Int) :
    ∀ (cs : List (Nat × Board)) (pl : Option Nat) (lm : Int), pl ≠ none →
      (miniMaxLoop f cs pl lm).1 ≠ none := by
  intro cs
  induction cs with
  | nil => intro pl lm h; exact h
  | cons pr rest ih =>
    intro pl lm h
    simp only [miniMaxLoop]
    split
    · exact ih _ _ (by simp)
    · exact ih _ _ h

theorem abMaxLoop_ne_none (f : Board → Int → Int → Option Nat × Int) (β : Int) :
    ∀ (cs : List (Nat × Board)) (pl : Option Nat) (lm α : Int), pl ≠ none →
      (abMaxLoop f β cs pl lm α).1 ≠ none := by
  intro cs
  induction cs with
  | nil => intro pl lm α h; exact h
  | cons pr rest ih =>
    intro pl lm α h
    have hpl' : (if (f pr.2 α β).2 > lm then some pr.1 else pl) ≠ none := by
      split
      · simp
      · exact h
    simp only [abMaxLoop]
    split
    · exact hpl'
    · exact ih _ _ _ hpl'

theorem expMaxLoop_ne_none (f : Board → Option Nat × ℚ) :
    ∀ (cs : List (Nat × Board)) (pl : Option Nat) (lm : ℚ), pl ≠ none →
      (expMaxLoop f cs pl lm).1 ≠ none := by
  intro cs
  induction cs with
  | nil => intro pl lm h; exact h
  | cons pr rest ih =>
    intro pl lm h
    simp only [expMaxLoop]
    split
    · exact ih _ _ (by simp)
    · exact ih _ _ h

/-- Amended C5: a search returns `none` exactly when the depth limit is zero
or the board is terminal (won or full).  In particular a non-terminal board
with depth limit ≥ 1 always yields a column (the `SB b < maxsize` hypothesis
keeps every score strictly above the `-sys.maxsize` initialisation; it holds
for every realistic board size). -/
theorem search_none_iff (p : Player) (b : Board) (d : Nat) (hSB : SB b < maxsize) :
    (minimax p b d = none ↔ d = 0 ∨ b.terminal) ∧
    (alphabeta p b d = none ↔ d = 0 ∨ b.terminal) ∧
    (expectimax p b d = none ↔ d = 0 ∨ b.terminal) := by
  have hback : ∀ (h : d = 0 ∨ b.terminal),
      minimax p b d = none ∧ alphabeta p b d = none ∧ expectimax p b d = none := by
    intro h
    rcases h with rfl | hterm
    · refine ⟨?_, ?_, ?_⟩ <;>
        simp [minimax, alphabeta, expectimax, miniValue, abValue, expValue] <;>
        split <;>
        simp [terminalEvalMM_eq, terminalEvalAB_eq, terminalEvalEM_eq]
    · refine ⟨?_, ?_, ?_⟩ <;> cases d <;>
        simp [minimax, alphabeta, expectimax, miniValue, abValue, expValue, hterm,
          terminalEvalMM_eq, terminalEvalAB_eq, terminalEvalEM_eq]
  refine ⟨⟨?_, fun h => (hback h).1⟩, ⟨?_, fun h => (hback h).2.1⟩,
    ⟨?_, fun h => (hback h).2.2⟩⟩
  · intro h
    cases d with
    | zero => exact Or.inl rfl
    | succ d =>
      by_cases hterm : b.terminal
      · exact Or.inr hterm
      · exfalso
        rw [minimax, miniValue_succ_max p b d hterm] at h
        rcases hcs : get_child_boards p b with _ | ⟨pr, rest⟩
        · exact children_ne_nil_of_not_terminal p b hterm hcs
        · rw [hcs] at h
          have hb := miniValue_bound p d (opponent p) pr.2
            (by rw [SB_child p b pr (by rw [hcs]; exact List.mem_cons_self _ _)]; exact hSB)
          rw [SB_child p b pr (by rw [hcs]; exact List.mem_cons_self _ _)] at hb
          have hgt : (miniValue p d (opponent p) pr.2).2 > -maxsize := by
            have := SB_nonneg b
            omega
          simp only [miniMaxLoop, if_pos hgt] at h
          exact miniMaxLoop_ne_none _ _ _ _ (by simp) h
  · intro h
    cases d with
    | zero => exact Or.inl rfl
    | succ d =>
      by_cases hterm : b.terminal
      · exact Or.inr hterm
      · exfalso
        rw [alphabeta, abValue_succ_max p b d _ _ hterm] at h
        rcases hcs : get_child_boards p b with _ | ⟨pr, rest⟩
        · exact children_ne_nil_of_not_terminal p b hterm hcs
        · rw [hcs] at h
          have hb := abValue_bound p d (opponent p) pr.2 (-maxsize) maxsize
            (by rw [SB_child p b pr (by rw [hcs]; exact List.mem_cons_self _ _)]; exact hSB)
          rw [SB_child p b pr (by rw [hcs]; exact List.mem_cons_self _ _)] at hb
          have hgt : (abValue p d (opponent p) pr.2 (-maxsize) maxsize).2 > -maxsize := by
            have := SB_nonneg b
            omega
          simp only [abMaxLoop, if_pos hgt] at h
          split at h
          · simp at h
          · exact abMaxLoop_ne_none _ _ _ _ _ _ (by simp) h
  · intro h
    cases d with
    | zero => exact Or.inl rfl
    | succ d =>
      by_cases hterm : b.terminal
      · exact Or.inr hterm
      · exfalso
        rw [expectimax, expValue_succ_max p b d hterm] at h
        rcases hcs : get_child_boards p b with _ | ⟨pr, rest⟩
        · exact children_ne_nil_of_not_terminal p b hterm hcs
        · rw [hcs] at h
          have hb := expValue_bound p d (opponent p) pr.2
            (by rw [SB_child p b pr (by rw [hcs]; exact List.mem_cons_self _ _)]; exact hSB)
          rw [SB_child p b pr (by rw [hcs]; exact List.mem_cons_self _ _)] at hb
          have hMq : ((SB b : ℚ)) < (maxsize : ℚ) := by exact_mod_cast hSB
          have hgt : (expValue p d (opponent p) pr.2).2 > -((maxsize : ℚ)) := by
            have h0 : (0 : ℚ) ≤ (SB b : ℚ) := by exact_mod_cast SB_nonneg b
            linarith [hb.1]
          simp only [expMaxLoop, if_pos hgt] at h
          exact expMaxLoop_ne_none _ _ _ _ (by simp) h

/-- Witness for the amended C5 on the 1×1 empty board at depth 1. -/
theorem search_none_iff_witness :
    SB bOne < maxsize ∧ (minimax Player.one bOne 1 = none ↔ 1 = 0 ∨ bOne.terminal) :=
  ⟨by decide, (search_none_iff Player.one bOne 1 (by decide)).1⟩

/-! ### Fail-soft alpha-beta versus plain minimax (C1)

The classical argument: a pruned node's score is exact when it falls inside
the window, an upper bound on the true minimax score when it fails low, and
a lower bound when it fails high.  At the root the window is the full
`(-maxsize, maxsize)` range, scores stay strictly inside it (because
`SB b < maxsize`), so no pruning or inexactness ever reaches the root loop,
which therefore runs in lockstep with the plain minimax loop — including the
first-seen-wins strict tie-break — and chooses the same column. -/

end FourInARow
